import Mathlib

/-!
Verification development for the tree-note outline editor core
(`src/web/packages/tree-note/src/tree-note.ts` and
`src/web/packages/tree-note/src/extensions/OutlineNode.ts`).

Strings are embedded as `List Char` so that the JavaScript string
operations (split, slice, startsWith, ...) become plain list functions.
-/

namespace TreeNote

abbrev Str := List Char

/-- An inline mark on a text run (ProseMirror mark JSON).  The schema of the
editor carries `bold`, `italic`, `code`; the data model of the component also
admits `link(href)`, which the transcoder does not handle. -/
inductive Mark where
  | bold
  | italic
  | code
  | link (href : Str)
deriving DecidableEq, Repr

/-- A text run: a `type: 'text'` inline child with its list of marks
(an absent `marks` key is the empty list; JavaScript treats both alike
because `[]` is truthy and the loop over it does nothing). -/
structure Run where
  text : Str
  marks : List Mark
deriving DecidableEq, Repr

/-- One outline node: `{type: 'outlineNode', attrs: {level}, content: [...]}`. -/
structure ONode where
  level : Nat
  content : List Run
deriving DecidableEq, Repr

/-- A document is the ordered sequence of outline nodes of the `doc` JSON. -/
abbrev Doc := List ONode

/-! ## Export: `toMarkdown` / `nodeToText` (tree-note.ts lines 317-356) -/

/-- One wrapping step of the mark loop in `nodeToText`:
bold wraps with `**`, italic with `*`, code with a backtick, and any other
mark (such as a link) leaves the text unchanged. -/
def applyMark (m : Mark) (t : Str) : Str :=
  match m with
  | .bold => '*' :: '*' :: (t ++ ['*', '*'])
  | .italic => '*' :: (t ++ ['*'])
  | .code => '`' :: (t ++ ['`'])
  | .link _ => t

/-- Rendering of a single text run: the source iterates over `child.marks`
in array order, each mark wrapping the text produced so far. -/
def renderRun (r : Run) : Str :=
  r.marks.foldl (fun t m => applyMark m t) r.text

/-- `nodeToText`: concatenation of the rendered text runs of a node. -/
def nodeToText : List Run → Str
  | [] => []
  | r :: rest => renderRun r ++ nodeToText rest

/-- The markdown line of one node: `'  '.repeat(level) + '- ' + text`. -/
def nodeLine (n : ONode) : Str :=
  List.replicate (2 * n.level) ' ' ++ ('-' :: ' ' :: nodeToText n.content)

/-- `lines.join('\n')`. -/
def joinNL : List Str → Str
  | [] => []
  | [l] => l
  | l :: ls => l ++ '\n' :: joinNL ls

/-- `toMarkdown`: one line per outline node, newline-joined. -/
def toMarkdown (d : Doc) : Str :=
  joinNL (d.map nodeLine)

/-! ## Import: `fromMarkdown` / `parseTextWithMarks` (tree-note.ts lines 358-425) -/

/-- JavaScript `\s` character class (the whitespace set of ECMAScript). -/
def isWS (c : Char) : Bool :=
  c = ' ' || c = '\t' || c = '\n' || c = '\r' ||
  c.toNat = 11 || c.toNat = 12 || c.toNat = 0xa0 || c.toNat = 0x1680 ||
  (0x2000 ≤ c.toNat && c.toNat ≤ 0x200a) ||
  c.toNat = 0x2028 || c.toNat = 0x2029 ||
  c.toNat = 0x202f || c.toNat = 0x205f || c.toNat = 0x3000 || c.toNat = 0xfeff

/-- ECMAScript line terminators: `.` in a regex matches anything except these,
and `$` (without the `m` flag) only matches at the end of the input. -/
def isLineTerm (c : Char) : Bool :=
  c = '\n' || c = '\r' || c.toNat = 0x2028 || c.toNat = 0x2029

/-- The match of `^(\s*)-\s+(.*)$` against one line, returning
`(leading whitespace length / 2, the text after the bullet)`.
The greedy `\s*` takes the maximal whitespace prefix, the next character must
be `-`, the greedy `\s+` takes a nonempty maximal whitespace run, and `(.*)$`
forces the remainder to contain no line terminator. -/
def parseLine (l : Str) : Option (Nat × Str) :=
  let ws := l.takeWhile isWS
  match l.dropWhile isWS with
  | '-' :: r2 =>
    if (r2.takeWhile isWS).isEmpty then none
    else if (r2.dropWhile isWS).any isLineTerm then none
    else some (ws.length / 2, r2.dropWhile isWS)
  | _ => none

/-- Leftmost-position match attempt of the first alternative
`\*\*[^*]+\*\*` at the head of the string: on success returns the matched
token and the remaining input. -/
def tryBold : Str → Option (Str × Str)
  | '*' :: '*' :: rest =>
    let body := rest.takeWhile (fun c => c ≠ '*')
    match rest.dropWhile (fun c => c ≠ '*') with
    | '*' :: '*' :: r2 =>
      if body.isEmpty then none
      else some ('*' :: '*' :: (body ++ ['*', '*']), r2)
    | _ => none
  | _ => none

/-- Head match of the second alternative `\*[^*]+\*`. -/
def tryItalic : Str → Option (Str × Str)
  | '*' :: rest =>
    let body := rest.takeWhile (fun c => c ≠ '*')
    match rest.dropWhile (fun c => c ≠ '*') with
    | '*' :: r2 =>
      if body.isEmpty then none
      else some ('*' :: (body ++ ['*']), r2)
    | _ => none
  | _ => none

/-- Head match of the third alternative: a backtick span. -/
def tryCode : Str → Option (Str × Str)
  | '`' :: rest =>
    let body := rest.takeWhile (fun c => c ≠ '`')
    match rest.dropWhile (fun c => c ≠ '`') with
    | '`' :: r2 =>
      if body.isEmpty then none
      else some ('`' :: (body ++ ['`']), r2)
    | _ => none
  | _ => none

/-- Head match of the split regex
`(\*\*[^*]+\*\*|\*[^*]+\*|` + backtick span + `)`:
alternatives are tried in source order at each position. -/
def tryTok (s : Str) : Option (Str × Str) :=
  match tryBold s with
  | some x => some x
  | none =>
    match tryItalic s with
    | some x => some x
    | none => tryCode s

/-- Scanning loop of `String.prototype.split` with a capturing separator:
advance one character at a time, and at the leftmost position where the
separator matches emit the accumulated piece and the match.  The `fuel`
argument only bounds the recursion; every step consumes at least one input
character and one unit of fuel, and the fuel-exhausted result coincides with
the end-of-input result, so `fuel = s.length` always suffices. -/
def splitAuxF : Nat → Str → Str → List Str
  | 0, acc, _ => [acc.reverse]
  | fuel + 1, acc, s =>
    match tryTok s with
    | some (m, rest) => acc.reverse :: m :: splitAuxF fuel [] rest
    | none =>
      match s with
      | [] => [acc.reverse]
      | c :: cs => splitAuxF fuel (c :: acc) cs

/-- `text.split(regex)` with the capture group interleaved: pieces between
matches (possibly empty) alternate with matched tokens. -/
def splitCaps (t : Str) : List Str :=
  splitAuxF t.length [] t

/-- JavaScript `s.slice(a, -b)`: drop `a` characters at the front and `b` at
the back, clamped to the empty string. -/
def sliceTrim (a b : Nat) (s : Str) : Str :=
  (s.drop a).take (s.length - (a + b))

/-- Classification of one segment in `parseTextWithMarks`: a segment that
starts and ends with `**` becomes a bold run, else `*...*` an italic run,
else a backtick span a code run, else an unmarked run. -/
def classify (seg : Str) : Run :=
  if seg.take 2 = ['*', '*'] ∧ seg.reverse.take 2 = ['*', '*'] then
    ⟨sliceTrim 2 2 seg, [.bold]⟩
  else if seg.take 1 = ['*'] ∧ seg.reverse.take 1 = ['*'] then
    ⟨sliceTrim 1 1 seg, [.italic]⟩
  else if seg.take 1 = ['`'] ∧ seg.reverse.take 1 = ['`'] then
    ⟨sliceTrim 1 1 seg, [.code]⟩
  else ⟨seg, []⟩

/-- `parseTextWithMarks`: empty input gives no runs; otherwise split on the
mark spans, skip empty segments, classify each segment. -/
def parseTextWithMarks (t : Str) : List Run :=
  if t.isEmpty then []
  else ((splitCaps t).filter (fun s => !s.isEmpty)).map classify

/-- `markdown.split('\n')`. -/
def splitNL : Str → List Str
  | [] => [[]]
  | c :: cs =>
    if c = '\n' then [] :: splitNL cs
    else
      match splitNL cs with
      | p :: ps => (c :: p) :: ps
      | [] => [[c]]

/-- `fromMarkdown`: each line matching the bullet regex becomes one node,
non-matching lines are dropped, and if no line matches the document defaults
to a single empty level-0 node. -/
def fromMarkdownText (md : Str) : Doc :=
  let ns := (splitNL md).filterMap fun l =>
    (parseLine l).map fun p => ONode.mk p.1 (parseTextWithMarks p.2)
  if ns.isEmpty then [⟨0, []⟩] else ns

/-! ## Structural commands (extensions/OutlineNode.ts)

The selection is embedded as the index of the node containing it together
with a character offset; ProseMirror document positions in event payloads
are embedded as node indices.  An out-of-range index models a selection that
is not inside a governed outline node. -/

/-- The custom events the commands dispatch. -/
inductive Event where
  | created (pos : Nat)
  | indented (pos level : Nat)
  | unindented (pos level : Nat)
deriving DecidableEq, Repr

/-- Outcome of one keyboard command: the boolean the handler returns, the
resulting document, and the custom events dispatched. -/
structure CmdResult where
  applied : Bool
  doc : Doc
  events : List Event
deriving DecidableEq, Repr

/-- `indent` command (OutlineNode.ts lines 143-170): clamp the level at 10
with `Math.min(currentLevel + 1, 10)`, always dispatch, always return true
when the selection is inside an outline node. -/
def indentCmd (d : Doc) (i : Nat) : CmdResult :=
  match d[i]? with
  | none => ⟨false, d, []⟩
  | some n =>
    let newLevel := min (n.level + 1) 10
    ⟨true, d.set i { n with level := newLevel }, [.indented i newLevel]⟩

/-- `unindent` command (OutlineNode.ts lines 172-204): return false at
level 0 before any transaction, else `Math.max(currentLevel - 1, 0)`. -/
def unindentCmd (d : Doc) (i : Nat) : CmdResult :=
  match d[i]? with
  | none => ⟨false, d, []⟩
  | some n =>
    if n.level = 0 then ⟨false, d, []⟩
    else
      let newLevel := max (n.level - 1) 0
      ⟨true, d.set i { n with level := newLevel }, [.unindented i newLevel]⟩

/-- Cutting the inline content of a node at a character offset: a run hit in
the middle splits into two runs carrying the same marks; no empty runs are
produced at a boundary cut (ProseMirror `tr.split` semantics). -/
def splitContentAt (rs : List Run) (k : Nat) : List Run × List Run :=
  match rs with
  | [] => ([], [])
  | r :: rest =>
    if k = 0 then ([], r :: rest)
    else if k < r.text.length then
      ([⟨r.text.take k, r.marks⟩], ⟨r.text.drop k, r.marks⟩ :: rest)
    else
      let p := splitContentAt rest (k - r.text.length)
      (r :: p.1, p.2)

/-- Flattened text of an inline content sequence. -/
def flattenText : List Run → Str
  | [] => []
  | r :: rest => r.text ++ flattenText rest

/-- `Enter` handler (OutlineNode.ts lines 70-98): split the node at the
selection, give the new node the original's level, dispatch, and emit
`node-created` with the new node's position. -/
def splitCmd (d : Doc) (i off : Nat) : CmdResult :=
  match d[i]? with
  | none => ⟨false, d, []⟩
  | some n =>
    let p := splitContentAt n.content off
    ⟨true,
     d.take i ++ ONode.mk n.level p.1 :: ONode.mk n.level p.2 :: d.drop (i + 1),
     [.created (i + 1)]⟩

/-- Modelled from the spec: the document schema (`OutlineDocument`, imported
by tree-note.ts but absent from the source tree) keeps at least one outline
node in the document, so the editing engine rejects a deletion that would
leave it empty: "the document always has at least 1 node; deleting the last
remaining node is a no-op at the model boundary". -/
def docDelete (d : Doc) (i : Nat) : Doc :=
  if d.length ≤ 1 then d else d.eraseIdx i

/-- `Backspace` handler (OutlineNode.ts lines 108-133): only acts on a
collapsed selection at offset 0 inside an outline node with empty content,
in which case the node is deleted from the document. -/
def mergeIfEmptyCmd (d : Doc) (i : Nat) (collapsed : Bool) (off : Nat) :
    CmdResult :=
  if collapsed = false ∨ off ≠ 0 then ⟨false, d, []⟩
  else
    match d[i]? with
    | none => ⟨false, d, []⟩
    | some n =>
      if n.content.isEmpty then ⟨true, docDelete d i, []⟩
      else ⟨false, d, []⟩

/-- A structural command call together with the selection it acts on. -/
inductive Op where
  | indent (i : Nat)
  | unindent (i : Nat)
  | split (i off : Nat)
  | merge (i : Nat) (collapsed : Bool) (off : Nat)
deriving DecidableEq, Repr

/-- Whether an operation is one of the three level-changing commands
(indent, unindent, split), as opposed to the Backspace merge. -/
def Op.isStructEdit3 : Op → Bool
  | .merge _ _ _ => false
  | _ => true

/-- The document after one command call. -/
def step (d : Doc) (op : Op) : Doc :=
  match op with
  | .indent i => (indentCmd d i).doc
  | .unindent i => (unindentCmd d i).doc
  | .split i off => (splitCmd d i off).doc
  | .merge i c off => (mergeIfEmptyCmd d i c off).doc

/-- The document after a finite sequence of command calls. -/
def runOps (d : Doc) (ops : List Op) : Doc :=
  ops.foldl step d

/-! ## Supported-subset predicates for the round-trip property -/

/-- A text that survives the transcoder: nonempty, free of the `*` and
backtick wrapper characters, and free of line terminators. -/
def goodTextB (t : Str) : Bool :=
  !t.isEmpty && t.all fun c => c != '*' && c != '`' && !isLineTerm c

/-- A run of the supported subset: good text with either no mark or exactly
one of bold, italic, code. -/
def goodRunB (r : Run) : Bool :=
  goodTextB r.text &&
    (r.marks.isEmpty || r.marks == [Mark.bold] || r.marks == [Mark.italic] ||
      r.marks == [Mark.code])

/-- No two adjacent unmarked runs (they would merge into one on reimport). -/
def noTwoPlainB : List Run → Bool
  | r1 :: r2 :: rest =>
    !(r1.marks.isEmpty && r2.marks.isEmpty) && noTwoPlainB (r2 :: rest)
  | _ => true

/-- The first run of a node must not put a whitespace character right after
the `- ` bullet (the greedy `\s+` of the import regex would swallow it). -/
def headOkB : List Run → Bool
  | [] => true
  | r :: _ => !r.marks.isEmpty || (r.text.take 1).all fun c => !isWS c

/-- A node of the supported subset. -/
def goodNodeB (n : ONode) : Bool :=
  n.content.all goodRunB && noTwoPlainB n.content && headOkB n.content

/-- A document of the supported subset: nonempty, all nodes supported. -/
def goodDocB (d : Doc) : Bool :=
  !d.isEmpty && d.all goodNodeB

/-! ## Spec-side description of the export, for the refinement claim C7 -/

/-- The export as section 4.2 of the specification words it: "for each node
in document order, emit `('  ' times level) + '- ' + renderInline(content)`,
one line per node, newline-joined". -/
def specToMarkdown : Doc → Str
  | [] => []
  | [n] => List.replicate (2 * n.level) ' ' ++ ('-' :: ' ' :: nodeToText n.content)
  | n :: rest =>
    List.replicate (2 * n.level) ' ' ++ ('-' :: ' ' :: nodeToText n.content) ++
      '\n' :: specToMarkdown rest

/-- Removing every link mark from a document, leaving all else unchanged. -/
def stripLinks (d : Doc) : Doc :=
  d.map fun n =>
    ⟨n.level,
     n.content.map fun r =>
       ⟨r.text, r.marks.filter fun m =>
         match m with
         | .link _ => false
         | _ => true⟩⟩

/-- The two-node example document of the specification scenario:
`[{level:0,"A"},{level:1,"B"}]`. -/
def docAB : Doc :=
  [⟨0, [⟨['A'], []⟩]⟩, ⟨1, [⟨['B'], []⟩]⟩]

/-- The segment list the split scan produces on a rendered run sequence:
an unmarked run extends the pending plain piece, a marked run closes the
pending piece and contributes its rendered token. -/
def expSegs (pend : Str) : List Run → List Str
  | [] => [pend]
  | r :: rest =>
    if r.marks.isEmpty then expSegs (pend ++ r.text) rest
    else pend :: renderRun r :: expSegs [] rest

/-! ## Theorems -/

/-- Setting an index to the value already there leaves a list unchanged. -/
theorem set_self_of_getElem (l : List α) (i : Nat) (a : α)
    (h : l[i]? = some a) : l.set i a = l := by
  induction l generalizing i with
  | nil => simp at h
  | cons c t ih =>
    cases i with
    | zero => simp_all
    | succ j => simp_all [List.set]

/-- C2 counterexample: on the one-node document at level 10, `indent()`
returns true (not false) and emits a `node-indented` event. -/
theorem claim2_counterexample :
    (indentCmd [⟨10, []⟩] 0).applied = true ∧
    (indentCmd [⟨10, []⟩] 0).events ≠ [] := by
  decide

/-- C2 (amended): for every document and selection inside a node at the
maximum depth 10, `indent()` returns true, leaves the document unchanged
(the level is clamped by `Math.min` back to 10), and emits a
`node-indented` event carrying level 10. -/
theorem claim2_theorem (d : Doc) (i : Nat) (n : ONode)
    (h : d[i]? = some n) (hl : n.level = 10) :
    indentCmd d i = ⟨true, d, [Event.indented i 10]⟩ := by
  have hmin : min (n.level + 1) 10 = 10 := by omega
  have hn : ({ level := 10, content := n.content } : ONode) = n := by
    cases n
    simp_all
  simp only [indentCmd, h, hmin]
  rw [hn, set_self_of_getElem d i n h]

/-- Witness for C2 at a concrete document. -/
theorem claim2_witness :
    ([⟨10, [⟨['a'], []⟩]⟩] : Doc)[0]? = some ⟨10, [⟨['a'], []⟩]⟩ ∧
    (⟨10, [⟨['a'], []⟩]⟩ : ONode).level = 10 ∧
    indentCmd [⟨10, [⟨['a'], []⟩]⟩] 0 =
      ⟨true, [⟨10, [⟨['a'], []⟩]⟩], [Event.indented 0 10]⟩ :=
  ⟨by decide, by decide,
   claim2_theorem [⟨10, [⟨['a'], []⟩]⟩] 0 ⟨10, [⟨['a'], []⟩]⟩
     (by decide) (by decide)⟩

/-- C5: for every document and selection inside a node at level 0,
`unindent()` returns false, leaves the document unchanged, and emits no
event. -/
theorem claim5_theorem (d : Doc) (i : Nat) (n : ONode)
    (h : d[i]? = some n) (hl : n.level = 0) :
    unindentCmd d i = ⟨false, d, []⟩ := by
  simp [unindentCmd, h, hl]

/-- Witness for C5 at a concrete document. -/
theorem claim5_witness :
    ([⟨0, [⟨['a'], []⟩]⟩] : Doc)[0]? = some ⟨0, [⟨['a'], []⟩]⟩ ∧
    (⟨0, [⟨['a'], []⟩]⟩ : ONode).level = 0 ∧
    unindentCmd [⟨0, [⟨['a'], []⟩]⟩] 0 = ⟨false, [⟨0, [⟨['a'], []⟩]⟩], []⟩ :=
  ⟨by decide, by decide,
   claim5_theorem [⟨0, [⟨['a'], []⟩]⟩] 0 ⟨0, [⟨['a'], []⟩]⟩
     (by decide) (by decide)⟩

/-- Cutting a run sequence at offset `k` yields exactly the first `k`
characters of its flattened text and the rest. -/
theorem flattenText_splitContentAt (rs : List Run) (k : Nat) :
    flattenText (splitContentAt rs k).1 = (flattenText rs).take k ∧
    flattenText (splitContentAt rs k).2 = (flattenText rs).drop k := by
  induction rs generalizing k with
  | nil => simp [splitContentAt, flattenText]
  | cons r rest ih =>
    by_cases hk : k = 0
    · subst hk
      simp [splitContentAt, flattenText]
    · by_cases hlt : k < r.text.length
      · simp only [splitContentAt, if_neg hk, if_pos hlt, flattenText]
        constructor
        · rw [List.take_append_of_le_length (Nat.le_of_lt hlt)]
          simp [flattenText]
        · rw [List.drop_append_of_le_length (Nat.le_of_lt hlt)]
      · have hge : r.text.length ≤ k := Nat.le_of_not_lt hlt
        simp only [splitContentAt, if_neg hk, if_neg hlt, flattenText]
        constructor
        · rw [List.take_append_eq_append_take,
            List.take_of_length_le hge, (ih (k - r.text.length)).1]
        · rw [List.drop_append_eq_append_drop,
            List.drop_of_length_le hge, (ih (k - r.text.length)).2]
          simp

/-- C6: for every selection inside a governed node, `split()` returns true,
replaces the node with two nodes at the same level whose contents are the
text before and after the selection offset, keeps all other nodes, and
emits a `node-created` event carrying the new node's position. -/
theorem claim6_theorem (d : Doc) (i off : Nat) (n : ONode)
    (h : d[i]? = some n) :
    splitCmd d i off =
      ⟨true,
       d.take i ++ ONode.mk n.level (splitContentAt n.content off).1 ::
         ONode.mk n.level (splitContentAt n.content off).2 :: d.drop (i + 1),
       [Event.created (i + 1)]⟩ ∧
    flattenText (splitContentAt n.content off).1 =
      (flattenText n.content).take off ∧
    flattenText (splitContentAt n.content off).2 =
      (flattenText n.content).drop off :=
  ⟨by simp only [splitCmd, h],
   (flattenText_splitContentAt n.content off).1,
   (flattenText_splitContentAt n.content off).2⟩

/-- Witness for C6 at a concrete document: "hello" cut two characters in. -/
theorem claim6_witness :
    splitCmd [⟨2, [⟨"hello".toList, []⟩]⟩] 0 2 =
      ⟨true, [⟨2, [⟨"he".toList, []⟩]⟩, ⟨2, [⟨"llo".toList, []⟩]⟩],
       [Event.created 1]⟩ ∧
    flattenText [⟨"he".toList, []⟩] = "he".toList ∧
    flattenText [⟨"llo".toList, []⟩] = "llo".toList := by
  have h := claim6_theorem [⟨2, [⟨"hello".toList, []⟩]⟩] 0 2
    ⟨2, [⟨"hello".toList, []⟩]⟩ (by decide)
  exact ⟨h.1, h.2.1, h.2.2⟩

/-- A command step never maps a nonempty document to the empty document. -/
theorem step_ne_nil (d : Doc) (op : Op) (h : d ≠ []) : step d op ≠ [] := by
  have hlen : 0 < d.length := List.length_pos.2 h
  cases op with
  | indent i =>
    simp only [step, indentCmd]
    cases hg : d[i]? with
    | none => exact h
    | some m =>
      intro heq
      have : d.length = 0 := by
        have := congrArg List.length heq
        simpa using this
      omega
  | unindent i =>
    simp only [step, unindentCmd]
    cases hg : d[i]? with
    | none => exact h
    | some m =>
      by_cases hz : m.level = 0
      · simp [hz]
        exact h
      · simp [hz]
        intro heq
        have : d.length = 0 := by
          have := congrArg List.length heq
          simpa using this
        omega
  | split i off =>
    simp only [step, splitCmd]
    cases hg : d[i]? with
    | none => exact h
    | some m =>
      apply List.ne_nil_of_mem
        (a := ONode.mk m.level (splitContentAt m.content off).1)
      exact List.mem_append_right _ (List.mem_cons_self _ _)
  | merge i c off =>
    simp only [step, mergeIfEmptyCmd]
    by_cases hc : c = false ∨ off ≠ 0
    · simp [hc]
      exact h
    · simp [hc]
      cases hg : d[i]? with
      | none => exact h
      | some m =>
        by_cases hemp : m.content = []
        · simp [hemp, docDelete]
          by_cases h1 : d.length ≤ 1
          · simp [h1]
            exact h
          · simp [h1]
            exact ⟨h, fun hl => absurd (by omega : d.length ≤ 1) h1⟩
        · simp [hemp]
          exact h

/-- A command step keeps every node's level at most 10 when all levels
already are. -/
theorem step_levels (d : Doc) (op : Op) (h : ∀ n ∈ d, n.level ≤ 10) :
    ∀ n ∈ step d op, n.level ≤ 10 := by
  cases op with
  | indent i =>
    simp only [step, indentCmd]
    cases hg : d[i]? with
    | none => exact h
    | some m =>
      intro n hn
      rcases List.mem_or_eq_of_mem_set hn with hmem | rfl
      · exact h n hmem
      · exact Nat.min_le_right _ _
  | unindent i =>
    simp only [step, unindentCmd]
    cases hg : d[i]? with
    | none => exact h
    | some m =>
      by_cases hz : m.level = 0
      · simp [hz]
        exact h
      · simp [hz]
        intro n hn
        rcases List.mem_or_eq_of_mem_set hn with hmem | rfl
        · exact h n hmem
        · exact (Nat.sub_le _ _).trans (h m (List.getElem?_mem hg))
  | split i off =>
    simp only [step, splitCmd]
    cases hg : d[i]? with
    | none => exact h
    | some m =>
      intro n hn
      have hm := h m (List.getElem?_mem hg)
      rcases List.mem_append.1 hn with h1 | h2
      · exact h n (List.take_subset i d h1)
      · rcases h2 with _ | ⟨_, (_ | ⟨_, h3⟩)⟩
        · exact hm
        · exact hm
        · exact h n (List.drop_subset (i + 1) d h3)
  | merge i c off =>
    simp only [step, mergeIfEmptyCmd]
    by_cases hc : c = false ∨ off ≠ 0
    · simp [hc]
      exact h
    · simp [hc]
      cases hg : d[i]? with
      | none => exact h
      | some m =>
        by_cases hemp : m.content = []
        · simp [hemp, docDelete]
          by_cases h1 : d.length ≤ 1
          · simp [h1]
            exact h
          · simp [h1]
            exact fun n hn => h n (List.eraseIdx_subset d i hn)
        · simp [hemp]
          exact h

/-- C4: starting from a nonempty document whose levels lie in `[0, 10]`,
any finite sequence of indent, unindent, and split calls keeps every node's
level in `[0, 10]`. -/
theorem claim4_theorem (d : Doc) (ops : List Op) (hne : d ≠ [])
    (hinv : ∀ n ∈ d, n.level ≤ 10)
    (hops : ∀ op ∈ ops, op.isStructEdit3 = true) :
    ∀ n ∈ runOps d ops, 0 ≤ n.level ∧ n.level ≤ 10 := by
  induction ops generalizing d with
  | nil =>
    intro n hn
    exact ⟨Nat.zero_le _, hinv n (by simpa [runOps] using hn)⟩
  | cons op ops ih =>
    intro n hn
    refine ih (step d op) (step_ne_nil d op hne) (step_levels d op hinv)
      (fun o ho => hops o (List.mem_cons_of_mem _ ho)) n ?_
    simpa [runOps] using hn

/-- Witness for C4 on a concrete document, command sequence and node. -/
theorem claim4_witness :
    ([⟨10, []⟩] : Doc) ≠ [] ∧
    (ONode.mk 10 [] : ONode) ∈ runOps [⟨10, []⟩]
      [Op.indent 0, Op.split 0 0, Op.unindent 1, Op.indent 1] ∧
    (0 ≤ (ONode.mk 10 ([] : List Run)).level ∧
      (ONode.mk 10 ([] : List Run)).level ≤ 10) :=
  ⟨by decide, by decide,
   claim4_theorem [⟨10, []⟩]
     [Op.indent 0, Op.split 0 0, Op.unindent 1, Op.indent 1]
     (by decide) (by decide) (by decide) (ONode.mk 10 []) (by decide)⟩

/-- C3: the document never becomes empty under any sequence of structural
commands, and the Backspace merge on a single-node document leaves the
document unchanged (the document layer rejects a deletion of the last
node). -/
theorem claim3_theorem :
    (∀ (d : Doc) (ops : List Op), d ≠ [] → runOps d ops ≠ []) ∧
    (∀ (d : Doc) (i : Nat) (c : Bool) (off : Nat), d.length = 1 →
      (mergeIfEmptyCmd d i c off).doc = d) := by
  constructor
  · intro d ops hne
    induction ops generalizing d with
    | nil => simpa [runOps] using hne
    | cons op ops ih =>
      have h1 := step_ne_nil d op hne
      have h2 := ih (step d op) h1
      simpa [runOps] using h2
  · intro d i c off hlen
    simp only [mergeIfEmptyCmd]
    by_cases hc : c = false ∨ off ≠ 0
    · simp [hc]
    · simp [hc]
      cases hg : d[i]? with
      | none => rfl
      | some m =>
        by_cases hemp : m.content = []
        · simp [hemp, docDelete, hlen]
        · simp [hemp]

/-- Witness for C3: a merge on the sole empty node, then further commands,
never empty the document. -/
theorem claim3_witness :
    runOps [⟨0, []⟩] [Op.merge 0 true 0, Op.indent 0] ≠ [] ∧
    (mergeIfEmptyCmd [⟨0, []⟩] 0 true 0).doc = [⟨0, []⟩] :=
  ⟨claim3_theorem.1 [⟨0, []⟩] [Op.merge 0 true 0, Op.indent 0] (by decide),
   claim3_theorem.2 [⟨0, []⟩] 0 true 0 (by decide)⟩

/-- C7: `toMarkdown()` emits exactly one line per node in document order,
each line being two spaces repeated level times, then a dash and a space,
then the rendered inline content, newline-joined; the two-node example
document exports as the expected two-line string. -/
theorem claim7_theorem :
    (∀ d : Doc, toMarkdown d = specToMarkdown d) ∧
    toMarkdown docAB = "- A\n  - B".toList := by
  constructor
  · intro d
    induction d with
    | nil => rfl
    | cons n rest ih =>
      cases rest with
      | nil => rfl
      | cons m rest2 =>
        show nodeLine n ++ '\n' :: toMarkdown (m :: rest2) = _
        rw [ih]
        show _ = List.replicate (2 * n.level) ' ' ++
          ('-' :: ' ' :: nodeToText n.content) ++ '\n' :: specToMarkdown (m :: rest2)
        simp [nodeLine, List.append_assoc]
  · decide

/-- C9 counterexample: on a run carrying the marks `[bold, code]`, the
export wraps code outermost (it applies marks in the listed order), so the
output differs from the claimed bold-outermost nesting, and reordering the
marks on the run changes the output. -/
theorem claim9_counterexample :
    nodeToText [⟨['a'], [Mark.bold, Mark.code]⟩] = "`**a**`".toList ∧
    nodeToText [⟨['a'], [Mark.code, Mark.bold]⟩] = "**`a`**".toList ∧
    nodeToText [⟨['a'], [Mark.bold, Mark.code]⟩] ≠ "**`a`**".toList := by
  decide

/-- C9 (amended): the export wraps a run's marks as nested spans in the
order they are listed on the run, each later mark wrapping outside the
earlier ones, so the last-listed mark is outermost; there is no fixed
bold-outermost tie-break. -/
theorem claim9_theorem (t : Str) (ms : List Mark) (m : Mark) :
    renderRun ⟨t, ms ++ [m]⟩ = applyMark m (renderRun ⟨t, ms⟩) := by
  simp [renderRun, List.foldl_append]

/-- The mark loop ignores link marks: filtering them out of a mark list
does not change the rendered text. -/
theorem foldl_applyMark_filter (ms : List Mark) (t : Str) :
    (ms.filter fun m => match m with
      | Mark.link _ => false
      | _ => true).foldl (fun t m => applyMark m t) t =
    ms.foldl (fun t m => applyMark m t) t := by
  induction ms generalizing t with
  | nil => rfl
  | cons m ms ih =>
    cases m with
    | bold => simp only [List.filter_cons, List.foldl_cons]; exact ih _
    | italic => simp only [List.filter_cons, List.foldl_cons]; exact ih _
    | code => simp only [List.filter_cons, List.foldl_cons]; exact ih _
    | link href =>
      simp only [List.filter_cons, List.foldl_cons, applyMark]
      exact ih t

/-- Rendering is unchanged by removing the link marks of a run. -/
theorem renderRun_strip (r : Run) :
    renderRun ⟨r.text, r.marks.filter fun m => match m with
      | Mark.link _ => false
      | _ => true⟩ = renderRun r :=
  foldl_applyMark_filter r.marks r.text

/-- Node text is unchanged by removing link marks from every run. -/
theorem nodeToText_strip (rs : List Run) :
    nodeToText (rs.map fun r => Run.mk r.text (r.marks.filter fun m =>
      match m with
      | Mark.link _ => false
      | _ => true)) = nodeToText rs := by
  induction rs with
  | nil => rfl
  | cons r rest ih =>
    show renderRun _ ++ _ = renderRun r ++ nodeToText rest
    rw [renderRun_strip r, ih]

/-- The markdown export of a document is unchanged by removing all link
marks. -/
theorem toMarkdown_stripLinks (d : Doc) :
    toMarkdown (stripLinks d) = toMarkdown d := by
  unfold toMarkdown stripLinks
  rw [List.map_map]
  congr 1
  apply List.map_congr_left
  intro n _
  show nodeLine _ = nodeLine n
  unfold nodeLine
  simp only []
  rw [nodeToText_strip]

/-- C10: a run carrying only a link mark serializes as its bare text, and
two documents that differ only in link marks (equal after stripping links)
produce identical `toMarkdown()` output. -/
theorem claim10_theorem :
    (∀ (t href : Str), renderRun ⟨t, [Mark.link href]⟩ = t) ∧
    (∀ d1 d2 : Doc, stripLinks d1 = stripLinks d2 →
      toMarkdown d1 = toMarkdown d2) := by
  constructor
  · intro t href
    rfl
  · intro d1 d2 h
    rw [← toMarkdown_stripLinks d1, ← toMarkdown_stripLinks d2, h]

/-- Witness for C10: a link-marked run and its unmarked twin export alike. -/
theorem claim10_witness :
    renderRun ⟨['a'], [Mark.link ['h']]⟩ = ['a'] ∧
    toMarkdown [⟨0, [⟨['a'], [Mark.link ['h']]⟩]⟩] =
      toMarkdown [⟨0, [⟨['a'], []⟩]⟩] :=
  ⟨claim10_theorem.1 ['a'] ['h'],
   claim10_theorem.2 [⟨0, [⟨['a'], [Mark.link ['h']]⟩]⟩]
     [⟨0, [⟨['a'], []⟩]⟩] (by decide)⟩

/-- All-true prefix plus failing head: `takeWhile` keeps exactly the
prefix and `dropWhile` exactly the rest. -/
theorem takeWhile_append_stop {p : Char → Bool} {t u : Str}
    (ht : ∀ c ∈ t, p c = true) (hu : ∀ c ∈ u.take 1, p c = false) :
    (t ++ u).takeWhile p = t ∧ (t ++ u).dropWhile p = u := by
  constructor
  · rw [List.takeWhile_append_of_pos ht]
    cases u with
    | nil => simp
    | cons c cs =>
      rw [List.takeWhile_cons, hu c (by simp)]
      simp
  · rw [List.dropWhile_append_of_pos ht]
    cases u with
    | nil => rfl
    | cons c cs =>
      rw [List.dropWhile_cons, hu c (by simp)]
      simp

/-- Length of a `filterMap` as a count of the inputs it keeps. -/
theorem length_filterMap_countP (f : α → Option β) (l : List α) :
    (l.filterMap f).length = l.countP fun a => (f a).isSome := by
  induction l with
  | nil => rfl
  | cons a l ih =>
    cases hf : f a <;>
      simp [List.filterMap_cons, hf, List.countP_cons, ih]

/-- C8: a line of the shape `whitespace, dash, whitespace(1+), rest` (with
`rest` not starting with whitespace and containing no line terminator, the
exact extent of a `^(\s*)-\s+(.*)$` match) parses to one node with
`level = floor(leading whitespace / 2)`; input whose lines all fail the
pattern imports as a single empty level-0 node; and in general the import
produces exactly one node per matching line (non-matching lines dropped),
with the single default node when none match. -/
theorem claim8_theorem :
    (∀ ws1 ws2 rest : Str,
      (∀ c ∈ ws1, isWS c = true) → ws2 ≠ [] → (∀ c ∈ ws2, isWS c = true) →
      (∀ c ∈ rest.take 1, isWS c = false) →
      (∀ c ∈ rest, isLineTerm c = false) →
      parseLine (ws1 ++ '-' :: (ws2 ++ rest)) =
        some (ws1.length / 2, rest)) ∧
    (∀ md : Str, (splitNL md).all (fun l => (parseLine l).isNone) = true →
      fromMarkdownText md = [⟨0, []⟩]) ∧
    (∀ md : Str, (fromMarkdownText md).length =
      max ((splitNL md).countP fun l => (parseLine l).isSome) 1) := by
  refine ⟨?_, ?_, ?_⟩
  · intro ws1 ws2 rest h1 h2 h3 h4 h5
    have hA := takeWhile_append_stop (u := '-' :: (ws2 ++ rest)) h1
      (by intro c hc; simp at hc; subst hc; decide)
    have hB := takeWhile_append_stop h3 h4
    simp only [parseLine, hA.1, hA.2, hB.1, hB.2]
    rw [if_neg, if_neg]
    · simp [List.any_eq_true]
      intro c hc
      simp [h5 c hc]
    · simp [List.isEmpty_iff]
      exact h2
  · intro md hall
    have hnil : (splitNL md).filterMap (fun l =>
        (parseLine l).map fun p => ONode.mk p.1 (parseTextWithMarks p.2)) =
        [] := by
      rw [List.filterMap_eq_nil_iff]
      intro l hl
      have hx := List.all_eq_true.mp hall l hl
      rw [Option.isNone_iff_eq_none] at hx
      simp [hx]
    simp [fromMarkdownText, hnil]
  · intro md
    simp only [fromMarkdownText]
    have hlen : ((splitNL md).filterMap (fun l =>
        (parseLine l).map fun p =>
          ONode.mk p.1 (parseTextWithMarks p.2))).length =
        (splitNL md).countP fun l => (parseLine l).isSome := by
      rw [length_filterMap_countP]
      congr 1
      funext l
      simp
    by_cases hns : ((splitNL md).filterMap (fun l =>
        (parseLine l).map fun p =>
          ONode.mk p.1 (parseTextWithMarks p.2))).isEmpty = true
    · rw [if_pos hns]
      rw [List.isEmpty_iff] at hns
      rw [hns] at hlen
      simp at hlen
      simp
      omega
    · rw [if_neg hns]
      rw [List.isEmpty_iff] at hns
      have hpos : 0 < ((splitNL md).filterMap (fun l =>
          (parseLine l).map fun p =>
            ONode.mk p.1 (parseTextWithMarks p.2))).length :=
        List.length_pos.2 hns
      rw [hlen] at hpos ⊢
      omega

/-- Witness for C8 at concrete inputs. -/
theorem claim8_witness :
    parseLine ("  - ab".toList) = some (1, "ab".toList) ∧
    fromMarkdownText ("plain".toList) = [⟨0, []⟩] ∧
    (fromMarkdownText ("x\n- a".toList)).length =
      max ((splitNL ("x\n- a".toList)).countP fun l => (parseLine l).isSome) 1 :=
  ⟨claim8_theorem.1 [' ', ' '] [' '] ("ab".toList) (by decide) (by decide)
     (by decide) (by decide) (by decide),
   claim8_theorem.2.1 ("plain".toList) (by decide),
   claim8_theorem.2.2 ("x\n- a".toList)⟩

/-- Unpacking of the good-text predicate. -/
theorem goodTextB_spec {t : Str} (h : goodTextB t = true) :
    t ≠ [] ∧ ∀ c ∈ t, c ≠ '*' ∧ c ≠ '`' ∧ isLineTerm c = false := by
  simp only [goodTextB, Bool.and_eq_true, List.all_eq_true] at h
  obtain ⟨h1, h2⟩ := h
  constructor
  · simpa [List.isEmpty_iff] using h1
  · intro c hc
    have := h2 c hc
    simp only [Bool.and_eq_true, bne_iff_ne, Bool.not_eq_eq_eq_not,
      Bool.not_true] at this
    exact ⟨this.1.1, this.1.2, this.2⟩

/-- Unpacking of the good-run predicate. -/
theorem goodRunB_spec {r : Run} (h : goodRunB r = true) :
    goodTextB r.text = true ∧
    (r.marks = [] ∨ r.marks = [Mark.bold] ∨ r.marks = [Mark.italic] ∨
      r.marks = [Mark.code]) := by
  simp only [goodRunB, Bool.and_eq_true, Bool.or_eq_true, List.isEmpty_iff,
    beq_iff_eq] at h
  exact ⟨h.1, by tauto⟩

/-- The first regex alternative fails on a head other than a star. -/
theorem tryBold_head {c : Char} (s : Str) (h : c ≠ '*') :
    tryBold (c :: s) = none := by
  unfold tryBold
  split
  · next heq => simp at heq; exact absurd heq.1 h
  · rfl

/-- The first regex alternative fails when the second character is not a
star. -/
theorem tryBold_head2 {c : Char} (s : Str) (h : c ≠ '*') :
    tryBold ('*' :: c :: s) = none := by
  unfold tryBold
  split
  · next heq => simp at heq; exact absurd heq.1 h
  · rfl

/-- The second regex alternative fails on a head other than a star. -/
theorem tryItalic_head {c : Char} (s : Str) (h : c ≠ '*') :
    tryItalic (c :: s) = none := by
  unfold tryItalic
  split
  · next heq => simp at heq; exact absurd heq.1 h
  · rfl

/-- The third regex alternative fails on a head other than a backtick. -/
theorem tryCode_head {c : Char} (s : Str) (h : c ≠ '`') :
    tryCode (c :: s) = none := by
  unfold tryCode
  split
  · next heq => simp at heq; exact absurd heq.1 h
  · rfl

/-- No alternative of the split regex matches at a plain character. -/
theorem tryTok_head {c : Char} (s : Str) (h1 : c ≠ '*') (h2 : c ≠ '`') :
    tryTok (c :: s) = none := by
  simp [tryTok, tryBold_head s h1, tryItalic_head s h1, tryCode_head s h2]

/-- The split regex never matches at the end of input. -/
theorem tryTok_nil : tryTok [] = none := rfl

/-- The first alternative consumes exactly a rendered bold span. -/
theorem tryBold_token (t X : Str) (hne : t ≠ []) (hstar : ∀ c ∈ t, c ≠ '*') :
    tryBold ('*' :: '*' :: (t ++ '*' :: '*' :: X)) =
      some ('*' :: '*' :: (t ++ ['*', '*']), X) := by
  have ht : ∀ c ∈ t, (fun c => decide (c ≠ '*')) c = true := fun c hc => by
    simp [hstar c hc]
  have hu : ∀ c ∈ ('*' :: '*' :: X).take 1,
      (fun c => decide (c ≠ '*')) c = false := by
    intro c hc
    simp at hc
    subst hc
    simp
  have hA := takeWhile_append_stop ht hu
  simp only [tryBold]
  rw [hA.1, hA.2]
  simp [List.isEmpty_iff, hne]

/-- The second alternative consumes exactly a rendered italic span. -/
theorem tryItalic_token (t X : Str) (hne : t ≠ []) (hstar : ∀ c ∈ t, c ≠ '*') :
    tryItalic ('*' :: (t ++ '*' :: X)) = some ('*' :: (t ++ ['*']), X) := by
  have ht : ∀ c ∈ t, (fun c => decide (c ≠ '*')) c = true := fun c hc => by
    simp [hstar c hc]
  have hu : ∀ c ∈ ('*' :: X).take 1,
      (fun c => decide (c ≠ '*')) c = false := by
    intro c hc
    simp at hc
    subst hc
    simp
  have hA := takeWhile_append_stop ht hu
  simp only [tryItalic]
  rw [hA.1, hA.2]
  simp [List.isEmpty_iff, hne]

/-- The third alternative consumes exactly a rendered code span. -/
theorem tryCode_token (t X : Str) (hne : t ≠ []) (htick : ∀ c ∈ t, c ≠ '`') :
    tryCode ('`' :: (t ++ '`' :: X)) = some ('`' :: (t ++ ['`']), X) := by
  have ht : ∀ c ∈ t, (fun c => decide (c ≠ '`')) c = true := fun c hc => by
    simp [htick c hc]
  have hu : ∀ c ∈ ('`' :: X).take 1,
      (fun c => decide (c ≠ '`')) c = false := by
    intro c hc
    simp at hc
    subst hc
    simp
  have hA := takeWhile_append_stop ht hu
  simp only [tryCode]
  rw [hA.1, hA.2]
  simp [List.isEmpty_iff, hne]

/-- The split regex matches a rendered bold span at the head of the input. -/
theorem tryTok_bold_run (t X : Str) (hne : t ≠ []) (hstar : ∀ c ∈ t, c ≠ '*') :
    tryTok (('*' :: '*' :: (t ++ ['*', '*'])) ++ X) =
      some ('*' :: '*' :: (t ++ ['*', '*']), X) := by
  have hs : ('*' :: '*' :: (t ++ ['*', '*'])) ++ X =
      '*' :: '*' :: (t ++ '*' :: '*' :: X) := by
    simp
  rw [hs]
  simp [tryTok, tryBold_token t X hne hstar]

/-- The split regex matches a rendered italic span at the head of the
input (the bold alternative fails because the second character is not a
star). -/
theorem tryTok_italic_run (t X : Str) (hne : t ≠ [])
    (hstar : ∀ c ∈ t, c ≠ '*') :
    tryTok (('*' :: (t ++ ['*'])) ++ X) = some ('*' :: (t ++ ['*']), X) := by
  obtain ⟨c, t', rfl⟩ := List.exists_cons_of_ne_nil hne
  have hs : ('*' :: ((c :: t') ++ ['*'])) ++ X =
      '*' :: c :: (t' ++ '*' :: X) := by
    simp
  rw [hs]
  have hb := tryBold_head2 (s := t' ++ '*' :: X) (hstar c (by simp))
  have hi := tryItalic_token (c :: t') X (by simp) hstar
  have hs2 : '*' :: ((c :: t') ++ '*' :: X) = '*' :: c :: (t' ++ '*' :: X) := by
    simp
  rw [hs2] at hi
  simp [tryTok, hb, hi]

/-- The split regex matches a rendered code span at the head of the input
(the star alternatives fail on the backtick head). -/
theorem tryTok_code_run (t X : Str) (hne : t ≠ [])
    (htick : ∀ c ∈ t, c ≠ '`') :
    tryTok (('`' :: (t ++ ['`'])) ++ X) = some ('`' :: (t ++ ['`']), X) := by
  have hs : ('`' :: (t ++ ['`'])) ++ X = '`' :: (t ++ '`' :: X) := by
    simp
  rw [hs]
  simp [tryTok, tryBold_head (c := '`') (t ++ '`' :: X) (by decide),
    tryItalic_head (c := '`') (t ++ '`' :: X) (by decide),
    tryCode_token t X hne htick]

/-- One scan step at a separator match. -/
theorem splitAuxF_tok (fuel : Nat) (acc s m rest : Str)
    (h : tryTok s = some (m, rest)) :
    splitAuxF (fuel + 1) acc s = acc.reverse :: m :: splitAuxF fuel [] rest := by
  simp [splitAuxF, h]

/-- One scan step over a non-matching character. -/
theorem splitAuxF_adv (fuel : Nat) (acc : Str) (c : Char) (cs : Str)
    (h : tryTok (c :: cs) = none) :
    splitAuxF (fuel + 1) acc (c :: cs) = splitAuxF fuel (c :: acc) cs := by
  simp [splitAuxF, h]

/-- The scan at end of input emits the pending piece, at any fuel. -/
theorem splitAuxF_nil (fuel : Nat) (acc : Str) :
    splitAuxF fuel acc [] = [acc.reverse] := by
  cases fuel <;> rfl

/-- The scan absorbs a plain prefix (no stars, no backticks) into the
pending piece. -/
theorem splitAuxF_plain (t : Str) (h : ∀ c ∈ t, c ≠ '*' ∧ c ≠ '`') :
    ∀ (fuel : Nat) (acc X : Str), t.length + X.length ≤ fuel →
    splitAuxF fuel acc (t ++ X) =
      splitAuxF (fuel - t.length) (t.reverse ++ acc) X := by
  induction t with
  | nil =>
    intro fuel acc X hf
    simp
  | cons c t' ih =>
    intro fuel acc X hf
    simp only [List.length_cons] at hf
    cases fuel with
    | zero => omega
    | succ f =>
      have hc := h c (by simp)
      rw [List.cons_append, splitAuxF_adv f acc c (t' ++ X)
        (tryTok_head _ hc.1 hc.2)]
      rw [ih (fun x hx => h x (by simp [hx])) f (c :: acc) X (by omega)]
      simp [Nat.succ_sub_succ, List.append_assoc]

/-- A run without marks renders as its bare text. -/
theorem renderRun_marks_nil {r : Run} (h : r.marks = []) :
    renderRun r = r.text := by
  unfold renderRun
  rw [h]
  rfl

/-- A bold-only run renders as a double-star span. -/
theorem renderRun_marks_bold {r : Run} (h : r.marks = [Mark.bold]) :
    renderRun r = '*' :: '*' :: (r.text ++ ['*', '*']) := by
  unfold renderRun
  rw [h]
  rfl

/-- An italic-only run renders as a single-star span. -/
theorem renderRun_marks_italic {r : Run} (h : r.marks = [Mark.italic]) :
    renderRun r = '*' :: (r.text ++ ['*']) := by
  unfold renderRun
  rw [h]
  rfl

/-- A code-only run renders as a backtick span. -/
theorem renderRun_marks_code {r : Run} (h : r.marks = [Mark.code]) :
    renderRun r = '`' :: (r.text ++ ['`']) := by
  unfold renderRun
  rw [h]
  rfl

/-- The node text of a cons of runs. -/
theorem nodeToText_cons (r : Run) (rest : List Run) :
    nodeToText (r :: rest) = renderRun r ++ nodeToText rest := rfl

/-- The scan of a rendered run sequence produces exactly the expected
segment interleaving, for any sufficient fuel and pending piece. -/
theorem splitAuxF_render (rs : List Run) :
    (∀ r ∈ rs, goodRunB r = true) →
    ∀ (fuel : Nat) (acc : Str), (nodeToText rs).length ≤ fuel →
    splitAuxF fuel acc (nodeToText rs) = expSegs acc.reverse rs := by
  induction rs with
  | nil =>
    intro _ fuel acc _
    simp [nodeToText, splitAuxF_nil, expSegs]
  | cons r rest ih =>
    intro hg fuel acc hf
    have hrest : ∀ x ∈ rest, goodRunB x = true := fun x hx => hg x (by simp [hx])
    obtain ⟨htx, hmk⟩ := goodRunB_spec (hg r (by simp))
    obtain ⟨htne, htch⟩ := goodTextB_spec htx
    rw [nodeToText_cons] at hf ⊢
    rcases hmk with hpl | hb | hi | hc
    · -- unmarked run: its text is absorbed into the pending piece
      rw [renderRun_marks_nil hpl] at hf ⊢
      rw [splitAuxF_plain r.text (fun c hc2 => ⟨(htch c hc2).1, (htch c hc2).2.1⟩)
        fuel acc (nodeToText rest) (by simpa using hf)]
      rw [ih hrest (fuel - r.text.length) _ (by simp at hf; omega)]
      simp [expSegs, hpl]
    · -- bold run: the regex eats the whole span as one token
      rw [renderRun_marks_bold hb] at hf ⊢
      simp only [List.length_cons, List.length_append] at hf
      cases fuel with
      | zero => omega
      | succ f =>
        rw [splitAuxF_tok f acc _ _ _
          (tryTok_bold_run r.text (nodeToText rest) htne
            (fun c hc2 => (htch c hc2).1))]
        rw [ih hrest f [] (by omega)]
        simp only [List.reverse_nil]
        rw [show expSegs acc.reverse (r :: rest) =
          acc.reverse :: renderRun r :: expSegs [] rest by simp [expSegs, hb]]
        rw [renderRun_marks_bold hb]
    · -- italic run
      rw [renderRun_marks_italic hi] at hf ⊢
      simp only [List.length_cons, List.length_append] at hf
      cases fuel with
      | zero => omega
      | succ f =>
        rw [splitAuxF_tok f acc _ _ _
          (tryTok_italic_run r.text (nodeToText rest) htne
            (fun c hc2 => (htch c hc2).1))]
        rw [ih hrest f [] (by omega)]
        simp only [List.reverse_nil]
        rw [show expSegs acc.reverse (r :: rest) =
          acc.reverse :: renderRun r :: expSegs [] rest by simp [expSegs, hi]]
        rw [renderRun_marks_italic hi]
    · -- code run
      rw [renderRun_marks_code hc] at hf ⊢
      simp only [List.length_cons, List.length_append] at hf
      cases fuel with
      | zero => omega
      | succ f =>
        rw [splitAuxF_tok f acc _ _ _
          (tryTok_code_run r.text (nodeToText rest) htne
            (fun c hc2 => (htch c hc2).2.1))]
        rw [ih hrest f [] (by omega)]
        simp only [List.reverse_nil]
        rw [show expSegs acc.reverse (r :: rest) =
          acc.reverse :: renderRun r :: expSegs [] rest by simp [expSegs, hc]]
        rw [renderRun_marks_code hc]

/-- A good run never renders to the empty string. -/
theorem renderRun_ne_nil {r : Run} (h : goodRunB r = true) :
    renderRun r ≠ [] := by
  obtain ⟨htx, hmk⟩ := goodRunB_spec h
  obtain ⟨htne, _⟩ := goodTextB_spec htx
  rcases hmk with hm | hm | hm | hm
  · rw [renderRun_marks_nil hm]
    exact htne
  · rw [renderRun_marks_bold hm]
    simp
  · rw [renderRun_marks_italic hm]
    simp
  · rw [renderRun_marks_code hm]
    simp

/-- The tail of a no-two-plain run sequence is no-two-plain. -/
theorem noTwoPlainB_tail {r : Run} {rest : List Run}
    (h : noTwoPlainB (r :: rest) = true) : noTwoPlainB rest = true := by
  cases rest with
  | nil => rfl
  | cons r2 rest2 =>
    simp only [noTwoPlainB, Bool.and_eq_true] at h
    exact h.2

/-- Dropping the empty segments of the expected segment interleaving leaves
exactly the rendered runs: stated for an empty pending piece, and for a
nonempty pending piece when the sequence does not start with an unmarked
run. -/
theorem filter_expSegs (rs : List Run) :
    (∀ r ∈ rs, goodRunB r = true) → noTwoPlainB rs = true →
    (((expSegs [] rs).filter fun s => !s.isEmpty) = rs.map renderRun) ∧
    (∀ pend : Str, pend ≠ [] → (∀ r ∈ rs.take 1, r.marks ≠ []) →
      ((expSegs pend rs).filter fun s => !s.isEmpty) =
        pend :: rs.map renderRun) := by
  induction rs with
  | nil =>
    intro _ _
    constructor
    · simp [expSegs]
    · intro pend hpend _
      simp [expSegs, List.isEmpty_iff, hpend]
  | cons r rest ih =>
    intro hg hp
    have hgr := hg r (by simp)
    have hrest : ∀ x ∈ rest, goodRunB x = true := fun x hx => hg x (by simp [hx])
    have hprest := noTwoPlainB_tail hp
    have ihr := ih hrest hprest
    obtain ⟨htx, hmk⟩ := goodRunB_spec hgr
    obtain ⟨htne, _⟩ := goodTextB_spec htx
    constructor
    · rcases hmk with hm | hm | hm | hm
      · -- unmarked head: pending piece becomes the text itself
        rw [show expSegs [] (r :: rest) = expSegs r.text rest by
          simp [expSegs, hm]]
        cases rest with
        | nil =>
          simp [expSegs, List.isEmpty_iff, htne, renderRun_marks_nil hm]
        | cons r2 rest2 =>
          have hr2 : r2.marks ≠ [] := by
            simp only [noTwoPlainB, Bool.and_eq_true, Bool.not_eq_eq_eq_not,
              Bool.not_true, Bool.and_eq_false_iff, List.isEmpty_iff,
              List.isEmpty_eq_false] at hp
            rcases hp.1 with h1 | h1
            · exact absurd hm h1
            · exact h1
          rw [ihr.2 r.text htne (by simpa using hr2)]
          simp [renderRun_marks_nil hm]
      all_goals
        have hmne : ¬r.marks.isEmpty = true := by
          rw [hm]
          simp
        rw [show expSegs [] (r :: rest) = [] :: renderRun r :: expSegs [] rest by
          simp [expSegs, hmne]]
        rw [show (([] : Str) :: renderRun r :: expSegs [] rest).filter
            (fun s => !s.isEmpty) =
          (renderRun r :: expSegs [] rest).filter (fun s => !s.isEmpty) by
          simp [List.filter_cons]]
        rw [List.filter_cons_of_pos (by
          simp [List.isEmpty_iff]
          exact renderRun_ne_nil hgr)]
        rw [ihr.1]
        rfl
    · intro pend hpend hhead
      have hrm : r.marks ≠ [] := hhead r (by simp)
      have hmne : ¬r.marks.isEmpty = true := by
        simpa [List.isEmpty_iff] using hrm
      rw [show expSegs pend (r :: rest) =
        pend :: renderRun r :: expSegs [] rest by simp [expSegs, hmne]]
      rw [List.filter_cons_of_pos (by simp [List.isEmpty_iff, hpend])]
      rw [List.filter_cons_of_pos (by
        simp [List.isEmpty_iff]
        exact renderRun_ne_nil hgr)]
      rw [ihr.1]
      rfl

/-- Classifying the rendered form of a good single-mark run recovers the
run exactly. -/
theorem classify_renderRun (r : Run) (h : goodRunB r = true) :
    classify (renderRun r) = r := by
  obtain ⟨htx, hmk⟩ := goodRunB_spec h
  obtain ⟨htne, htch⟩ := goodTextB_spec htx
  obtain ⟨t, ms⟩ := r
  simp only at htne htch hmk ⊢
  rcases hmk with rfl | rfl | rfl | rfl
  · -- unmarked: no wrapper checks fire
    rw [renderRun_marks_nil rfl]
    obtain ⟨c, t2, rfl⟩ := List.exists_cons_of_ne_nil htne
    have hcs := htch c (by simp)
    unfold classify
    rw [if_neg, if_neg, if_neg]
    · simp [List.take_succ_cons]
      intro h1
      exact absurd h1 hcs.2.1
    · simp [List.take_succ_cons]
      intro h1
      exact absurd h1 hcs.1
    · simp [List.take_succ_cons]
      intro h1 _
      exact absurd h1 hcs.1
  · -- bold
    rw [renderRun_marks_bold rfl]
    unfold classify
    rw [if_pos]
    · simp only [sliceTrim, Run.mk.injEq, and_true]
      rw [List.drop_succ_cons, List.drop_succ_cons, List.drop_zero]
      have hlen : ('*' :: '*' :: (t ++ ['*', '*'])).length = t.length + 4 := by
        simp
      rw [hlen]
      have : t.length + 4 - (2 + 2) = t.length := by omega
      rw [this]
      exact List.take_left' rfl
    · constructor
      · simp [List.take_succ_cons]
      · rw [show ('*' :: '*' :: (t ++ ['*', '*'])).reverse =
          '*' :: '*' :: (t.reverse ++ ['*', '*']) by simp]
        simp [List.take_succ_cons]
  · -- italic
    rw [renderRun_marks_italic rfl]
    obtain ⟨c, t2, rfl⟩ := List.exists_cons_of_ne_nil htne
    have hcs := htch c (by simp)
    unfold classify
    rw [if_neg, if_pos]
    · simp only [sliceTrim, Run.mk.injEq, and_true]
      rw [List.drop_succ_cons, List.drop_zero]
      have hlen : ('*' :: ((c :: t2) ++ ['*'])).length = (c :: t2).length + 2 := by
        simp
      rw [hlen]
      have : (c :: t2).length + 2 - (1 + 1) = (c :: t2).length := by omega
      rw [this]
      exact List.take_left' rfl
    · constructor
      · simp [List.take_succ_cons]
      · rw [show ('*' :: ((c :: t2) ++ ['*'])).reverse =
          '*' :: ((c :: t2).reverse ++ ['*']) by simp]
        simp [List.take_succ_cons]
    · simp [List.take_succ_cons]
      intro h1
      exact absurd h1 hcs.1
  · -- code
    rw [renderRun_marks_code rfl]
    unfold classify
    rw [if_neg, if_neg, if_pos]
    · simp only [sliceTrim, Run.mk.injEq, and_true]
      rw [List.drop_succ_cons, List.drop_zero]
      have hlen : ('`' :: (t ++ ['`'])).length = t.length + 2 := by
        simp
      rw [hlen]
      have : t.length + 2 - (1 + 1) = t.length := by omega
      rw [this]
      exact List.take_left' rfl
    · constructor
      · simp [List.take_succ_cons]
      · rw [show ('`' :: (t ++ ['`'])).reverse =
          '`' :: (t.reverse ++ ['`']) by simp]
        simp [List.take_succ_cons]
    · simp [List.take_succ_cons]
    · simp [List.take_succ_cons]

/-- Characters of a rendered good run: text characters or wrappers. -/
theorem mem_renderRun {r : Run} (h : goodRunB r = true) {c : Char}
    (hc : c ∈ renderRun r) : c ∈ r.text ∨ c = '*' ∨ c = '`' := by
  obtain ⟨_, hmk⟩ := goodRunB_spec h
  rcases hmk with hm | hm | hm | hm
  · rw [renderRun_marks_nil hm] at hc
    exact Or.inl hc
  · rw [renderRun_marks_bold hm] at hc
    simp at hc
    tauto
  · rw [renderRun_marks_italic hm] at hc
    simp at hc
    tauto
  · rw [renderRun_marks_code hm] at hc
    simp at hc
    tauto

/-- The rendered text of good runs contains no line terminator. -/
theorem nodeToText_noLT (rs : List Run)
    (hg : ∀ r ∈ rs, goodRunB r = true) :
    ∀ c ∈ nodeToText rs, isLineTerm c = false := by
  induction rs with
  | nil => simp [nodeToText]
  | cons r rest ih =>
    intro c hc
    rw [nodeToText_cons] at hc
    rcases List.mem_append.1 hc with h1 | h2
    · have hgr := hg r (by simp)
      rcases mem_renderRun hgr h1 with ht | rfl | rfl
      · obtain ⟨_, htch⟩ := goodTextB_spec (goodRunB_spec hgr).1
        exact (htch c ht).2.2
      · decide
      · decide
    · exact ih (fun x hx => hg x (by simp [hx])) c h2

/-- The rendered text of a good node never starts with whitespace. -/
theorem nodeToText_head {rs : List Run}
    (hg : ∀ r ∈ rs, goodRunB r = true) (hh : headOkB rs = true) :
    ∀ c ∈ (nodeToText rs).take 1, isWS c = false := by
  cases rs with
  | nil => simp [nodeToText]
  | cons r rest =>
    have hgr := hg r (by simp)
    obtain ⟨htx, hmk⟩ := goodRunB_spec hgr
    obtain ⟨htne, _⟩ := goodTextB_spec htx
    rw [nodeToText_cons]
    rcases hmk with hm | hm | hm | hm
    · -- unmarked head run: headOkB constrains the first text character
      have hall : (r.text.take 1).all (fun c => !isWS c) = true := by
        simp only [headOkB, Bool.or_eq_true, Bool.not_eq_eq_eq_not,
          Bool.not_true, List.isEmpty_eq_false] at hh
        rcases hh with h1 | h1
        · exact absurd hm h1
        · exact h1
      rw [renderRun_marks_nil hm]
      obtain ⟨c0, t2, hts⟩ := List.exists_cons_of_ne_nil htne
      rw [hts]
      intro c hc
      simp only [List.cons_append, List.take_succ_cons, List.take_zero,
        List.mem_singleton] at hc
      rw [hc]
      have := List.all_eq_true.mp hall c0 (by rw [hts]; simp)
      simpa using this
    · rw [renderRun_marks_bold hm]
      intro c hc
      simp at hc
      subst hc
      decide
    · rw [renderRun_marks_italic hm]
      intro c hc
      simp at hc
      subst hc
      decide
    · rw [renderRun_marks_code hm]
      intro c hc
      simp at hc
      subst hc
      decide

/-- Unpacking of the good-node predicate. -/
theorem goodNodeB_spec {n : ONode} (h : goodNodeB n = true) :
    (∀ r ∈ n.content, goodRunB r = true) ∧ noTwoPlainB n.content = true ∧
      headOkB n.content = true := by
  simp only [goodNodeB, Bool.and_eq_true, List.all_eq_true] at h
  exact ⟨h.1.1, h.1.2, h.2⟩

/-- The bullet line of a good node parses back to its level and rendered
text. -/
theorem parseLine_nodeLine (n : ONode) (hg : goodNodeB n = true) :
    parseLine (nodeLine n) = some (n.level, nodeToText n.content) := by
  obtain ⟨hruns, hp, hh⟩ := goodNodeB_spec hg
  have hT1 := nodeToText_head hruns hh
  have hTlt := nodeToText_noLT n.content hruns
  have h1 : (nodeToText n.content).takeWhile isWS = [] := by
    cases hT : nodeToText n.content with
    | nil => rfl
    | cons c cs =>
      rw [List.takeWhile_cons]
      have := hT1 c (by rw [hT]; simp)
      simp [this]
  have h2 : (nodeToText n.content).dropWhile isWS = nodeToText n.content := by
    cases hT : nodeToText n.content with
    | nil => rfl
    | cons c cs =>
      rw [List.dropWhile_cons]
      have := hT1 c (by rw [hT]; simp)
      simp [this]
  have hA := takeWhile_append_stop
    (p := isWS)
    (t := List.replicate (2 * n.level) ' ')
    (u := '-' :: ' ' :: nodeToText n.content)
    (by
      intro c hc
      rw [List.eq_of_mem_replicate hc]
      decide)
    (by
      intro c hc
      simp at hc
      subst hc
      decide)
  have hlt2 : (nodeToText n.content).any isLineTerm = false := by
    rw [List.any_eq_false]
    intro c hc
    simp [hTlt c hc]
  simp only [nodeLine, parseLine, hA.1, hA.2, List.takeWhile_cons,
    List.dropWhile_cons, show isWS ' ' = true from by decide, if_true, h1, h2]
  rw [if_neg (by simp), if_neg (by simp [hlt2])]
  simp only [List.length_replicate]
  have hdiv : 2 * n.level / 2 = n.level := by omega
  rw [hdiv]

/-- Reparsing the rendered inline content of a good node recovers its runs
exactly. -/
theorem parse_render_content (rs : List Run)
    (hg : ∀ r ∈ rs, goodRunB r = true) (hp : noTwoPlainB rs = true) :
    parseTextWithMarks (nodeToText rs) = rs := by
  cases rs with
  | nil => rfl
  | cons r rest =>
    have hne : nodeToText (r :: rest) ≠ [] := by
      rw [nodeToText_cons]
      intro heq
      exact renderRun_ne_nil (hg r (by simp)) (List.append_eq_nil.1 heq).1
    unfold parseTextWithMarks splitCaps
    rw [if_neg (by simpa [List.isEmpty_iff] using hne)]
    rw [splitAuxF_render (r :: rest) hg (nodeToText (r :: rest)).length []
      le_rfl]
    simp only [List.reverse_nil]
    rw [(filter_expSegs (r :: rest) hg hp).1]
    rw [List.map_map]
    have hcongr : List.map (classify ∘ renderRun) (r :: rest) =
        List.map id (r :: rest) :=
      List.map_congr_left fun x hx => classify_renderRun x (hg x hx)
    rw [hcongr, List.map_id]

/-- Splitting a newline-free string on newlines gives the string back as
its only line. -/
theorem splitNL_no_nl (l : Str) (h : ∀ c ∈ l, c ≠ '\n') :
    splitNL l = [l] := by
  induction l with
  | nil => rfl
  | cons c cs ih =>
    simp only [splitNL, if_neg (h c (by simp))]
    rw [ih fun x hx => h x (by simp [hx])]

/-- Splitting past a newline-free prefix and an explicit newline. -/
theorem splitNL_append (l X : Str) (h : ∀ c ∈ l, c ≠ '\n') :
    splitNL (l ++ '\n' :: X) = l :: splitNL X := by
  induction l with
  | nil => simp [splitNL]
  | cons c cs ih =>
    have hih := ih fun x hx => h x (by simp [hx])
    simp only [List.cons_append, splitNL, if_neg (h c (by simp))]
    rw [show (cs.append ('\n' :: X)) = cs ++ '\n' :: X from rfl, hih]

/-- Splitting on newlines inverts newline-joining for newline-free lines. -/
theorem splitNL_joinNL (ls : List Str) (hne : ls ≠ [])
    (h : ∀ l ∈ ls, ∀ c ∈ l, c ≠ '\n') : splitNL (joinNL ls) = ls := by
  induction ls with
  | nil => exact absurd rfl hne
  | cons l ls ih =>
    cases ls with
    | nil => exact splitNL_no_nl l (h l (by simp))
    | cons l2 ls2 =>
      show splitNL (l ++ '\n' :: joinNL (l2 :: ls2)) = _
      rw [splitNL_append l _ (h l (by simp))]
      rw [ih (by simp) fun x hx => h x (by simp [hx])]

/-- The bullet line of a good node contains no newline. -/
theorem nodeLine_no_nl (n : ONode) (hg : goodNodeB n = true) :
    ∀ c ∈ nodeLine n, c ≠ '\n' := by
  obtain ⟨hruns, _, _⟩ := goodNodeB_spec hg
  intro c hc
  unfold nodeLine at hc
  rcases List.mem_append.1 hc with h1 | h2
  · rw [List.eq_of_mem_replicate h1]
    decide
  · rcases h2 with _ | ⟨_, (_ | ⟨_, h3⟩)⟩
    · decide
    · decide
    · intro heq
      have := nodeToText_noLT n.content hruns c h3
      rw [heq] at this
      exact absurd this (by decide)

/-- A `filterMap` whose function returns `some` of its input on every
member is the identity. -/
theorem filterMap_some_self {f : α → Option α} (l : List α)
    (h : ∀ a ∈ l, f a = some a) : l.filterMap f = l := by
  induction l with
  | nil => rfl
  | cons a l ih =>
    rw [List.filterMap_cons, h a (by simp)]
    rw [ih fun x hx => h x (by simp [hx])]

/-- C1 counterexample: the one-node document whose single unmarked run has
text `*a*` satisfies the hypotheses of the claim (at most one mark per run,
integral levels) but does not round-trip: the export emits `- *a*` and
reimporting parses the stars as an italic run. -/
theorem claim1_counterexample :
    fromMarkdownText (toMarkdown [⟨0, [⟨['*', 'a', '*'], []⟩]⟩]) ≠
      [⟨0, [⟨['*', 'a', '*'], []⟩]⟩] := by
  decide

/-- C1 (amended): importing the exported markdown reproduces the document
for every nonempty document in the supported subset: every run carries at
most one mark, that mark is bold, italic, or code (no link marks), every
run's text is nonempty and free of the wrapper characters star and
backtick and of line terminators, no node has two adjacent unmarked runs,
and no node's first run starts with whitespace while unmarked. -/
theorem claim1_theorem (d : Doc) (hg : goodDocB d = true) :
    fromMarkdownText (toMarkdown d) = d := by
  have hparts : (!d.isEmpty) = true ∧ d.all goodNodeB = true := by
    simpa only [goodDocB, Bool.and_eq_true] using hg
  have hne : d ≠ [] := by simpa using hparts.1
  have hnodes : ∀ n ∈ d, goodNodeB n = true := by
    simpa only [List.all_eq_true] using hparts.2
  unfold fromMarkdownText toMarkdown
  rw [splitNL_joinNL (d.map nodeLine)
    (by simpa using hne)
    (by
      intro l hl
      obtain ⟨n, hn, rfl⟩ := List.mem_map.1 hl
      exact nodeLine_no_nl n (hnodes n hn))]
  rw [List.filterMap_map]
  have heach : ∀ n ∈ d, ((fun l => (parseLine l).map fun p =>
      ONode.mk p.1 (parseTextWithMarks p.2)) ∘ nodeLine) n = some n := by
    intro n hn
    have hgn := hnodes n hn
    obtain ⟨hruns, hp, _⟩ := goodNodeB_spec hgn
    show ((parseLine (nodeLine n)).map fun p =>
      ONode.mk p.1 (parseTextWithMarks p.2)) = some n
    rw [parseLine_nodeLine n hgn]
    show some (ONode.mk n.level (parseTextWithMarks (nodeToText n.content))) =
      some n
    rw [parse_render_content n.content hruns hp]
  rw [filterMap_some_self d heach]
  rw [if_neg fun hcontra => hne (List.isEmpty_iff.mp hcontra)]

/-- Witness for C1 on a concrete supported document. -/
theorem claim1_witness :
    goodDocB [⟨0, [⟨['A'], []⟩]⟩, ⟨1, [⟨['B'], [Mark.bold]⟩]⟩] = true ∧
    fromMarkdownText (toMarkdown
      [⟨0, [⟨['A'], []⟩]⟩, ⟨1, [⟨['B'], [Mark.bold]⟩]⟩]) =
      [⟨0, [⟨['A'], []⟩]⟩, ⟨1, [⟨['B'], [Mark.bold]⟩]⟩] :=
  ⟨by decide,
   claim1_theorem [⟨0, [⟨['A'], []⟩]⟩, ⟨1, [⟨['B'], [Mark.bold]⟩]⟩]
     (by decide)⟩

end TreeNote
